import Mathlib

/-!
# A shallow embedding of the `BinarySearchTree<T>` engine of the minits repository

The source (TypeScript) is an iterative binary search tree with

* a per-node cached height together with a validity bit (`_cachedHeight`,
  `_heightValid`),
* a bounded global pool of retired node shells (`_nodePool`, `MAX_POOL_SIZE = 100`),
* iterative insert / search / remove (two-children case via in-order successor),
* a stack-based iterative in-order traversal, and
* a recursive validity check `isValidBST`.

Values are kept abstract (`α`); the JavaScript notions "null-like" (`value == null`)
and "falsy" are supplied as boolean predicates, and instantiated with
`Option Int` (`none` = `null`) for the concrete scenarios, together with the
default numeric comparator of `_getDefaultComparator`.

JavaScript mutation is modelled by explicit state passing: a tree operation maps a
`TreeState` (root, `_size`, pool) to a new one.  The node pool only ever stores
shells wiped by `reset()` (value cleared, links null, cached height 0, bit set),
which are pairwise indistinguishable, so the pool is modelled by its length alone:
popping a shell yields a node whose bit is invalid (because `_createNode` calls
`invalidateHeight()` on a pooled shell), a fresh allocation yields a node whose
bit is valid with cached height 0 (the `BSTNode` constructor runs `_updateHeight`
on a childless node).
-/

namespace Minits

/-- A comparator in the sense of the source: negative if `a < b`, positive if
`a > b`, zero if equal. -/
abbrev Comparator (α : Type) := α → α → Int

/-- A `BSTNode<T>` (or the absence of one, `nil`, modelling a `null` link):
stored value, `_cachedHeight`, `_heightValid`, left and right child. -/
inductive BST (α : Type) where
  | nil : BST α
  | node (value : α) (cached : Int) (valid : Bool) (left right : BST α) : BST α
deriving DecidableEq, Repr

namespace BST

/-- Number of nodes reachable from this link (used for termination measures). -/
def numNodes {α : Type} : BST α → Nat
  | nil => 0
  | node _ _ _ l r => 1 + numNodes l + numNodes r

/-- The value returned by `getHeight()`: if the bit is valid the cached height,
otherwise `_updateHeight` recomputes `1 + max(left, right)` where an absent child
contributes `-1` (the `nil` case models the caller's `child ? child.getHeight() : -1`). -/
def getHeight {α : Type} : BST α → Int
  | nil => -1
  | node _ c b l r => if b then c else 1 + max (getHeight l) (getHeight r)

/-- The cache mutation performed by `getHeight()`: a valid node is untouched
(its children are not visited), an invalid node recomputes from its children
(recursively filling them) and sets its bit. -/
def fillHeight {α : Type} : BST α → BST α
  | nil => nil
  | node v c b l r =>
      if b then node v c b l r
      else node v (1 + max (getHeight l) (getHeight r)) true (fillHeight l) (fillHeight r)

/-- The actual height of the tree, ignoring the cache: the specification's
`1 + max(left height, right height)`, `-1` for an absent subtree. -/
def trueHeight {α : Type} : BST α → Int
  | nil => -1
  | node _ _ _ l r => 1 + max (trueHeight l) (trueHeight r)

/-- In-order list of values (left, node, right); reference definition used to
state properties of the iterative traversal. -/
def inOrder {α : Type} : BST α → List α
  | nil => []
  | node v _ _ l r => inOrder l ++ v :: inOrder r

end BST

open BST

/-- `MAX_POOL_SIZE`. -/
def MAX_POOL_SIZE : Nat := 100

/-- `_returnNode`: push the reset shell only while the pool is below capacity,
otherwise drop the node. -/
def returnNode (pool : Nat) : Nat :=
  if pool < MAX_POOL_SIZE then pool + 1 else pool

/-- `_createNode(value)`: pop a shell when the pool is non-empty (the popped node
gets the value, cleared links, and `invalidateHeight()`, so its bit is invalid and
its cached height is the 0 left by `reset()`); otherwise allocate a fresh
`new BSTNode(value)` whose constructor leaves cached height 0 with a valid bit. -/
def createNode {α : Type} (pool : Nat) (v : α) : BST α × Nat :=
  if pool ≠ 0 then (BST.node v 0 false BST.nil BST.nil, pool - 1)
  else (BST.node v 0 true BST.nil BST.nil, pool)

/-- The observable state of one `BinarySearchTree<T>`: `_root`, `_size` (a JS
number, kept as `Int`), and the length of the shared `_nodePool`. -/
structure TreeState (α : Type) where
  root : BST α
  size : Int
  pool : Nat
deriving DecidableEq, Repr

/-- The constructor.  `rootValue` is `none` when the argument was absent or
`undefined` (the source tests `rootValue !== undefined`); any other argument —
including an explicit `null` — creates an initial node holding it. -/
def mkBST {α : Type} (rootValue : Option α) (pool : Nat) : TreeState α :=
  match rootValue with
  | none => ⟨BST.nil, 0, pool⟩
  | some v =>
      let np := createNode pool v
      ⟨np.1, 1, np.2⟩

/-- The `isEmpty` getter: `_root === null`. -/
def isEmpty {α : Type} (s : TreeState α) : Bool :=
  match s.root with
  | BST.nil => true
  | BST.node _ _ _ _ _ => false

/-- The `height` getter's value: `_root ? _root.getHeight() : -1`
(`getHeight nil = -1` by definition, coinciding with the `: -1` branch). -/
def heightValue {α : Type} (s : TreeState α) : Int := getHeight s.root

/-- The state after reading the `height` getter (reading fills caches). -/
def readHeight {α : Type} (s : TreeState α) : TreeState α :=
  { s with root := fillHeight s.root }

/-- `getRootValue()`: `this._root?.value || null`.  Because of `||`, a falsy
root value (`0`, `""`, `false`, `null`, …) yields `null` (modelled `none`). -/
def getRootValue {α : Type} (falsy : α → Bool) (s : TreeState α) : Option α :=
  match s.root with
  | BST.nil => none
  | BST.node v _ _ _ _ => if falsy v then none else some v

/-- `_insertIterative(value)` together with the pool effect of `_createNode` and
the `_size` effect, folded into one recursive walk.  Mirrors the iterative
search for the insertion point: comparator zero ⇒ silent no-op; the new node is
attached at the empty slot and only the direct parent's bit is invalidated
(`_updateHeightChain` breaks after one node).  Returns
(new root, new pool, whether a node was inserted).  The `nil` case is
unreachable: `insert` handles the empty tree before calling this. -/
def insertIter {α : Type} (cmp : Comparator α) (v : α) :
    BST α → Nat → BST α × Nat × Bool
  | BST.nil, pool => (BST.nil, pool, false)
  | BST.node val c b l r, pool =>
      let comparison := cmp v val
      if comparison = 0 then (BST.node val c b l r, pool, false)
      else if comparison < 0 then
        match l with
        | BST.nil =>
            let np := createNode pool v
            (BST.node val c false np.1 r, np.2, true)
        | BST.node lv lc lb ll lr =>
            let res := insertIter cmp v (BST.node lv lc lb ll lr) pool
            (BST.node val c b res.1 r, res.2.1, res.2.2)
      else
        match r with
        | BST.nil =>
            let np := createNode pool v
            (BST.node val c false l np.1, np.2, true)
        | BST.node rv rc rb rl rr =>
            let res := insertIter cmp v (BST.node rv rc rb rl rr) pool
            (BST.node val c b l res.1, res.2.1, res.2.2)

/-- `insert(value)`: `throw` on a null-like value (modelled as `Except.error`),
create the root when empty, otherwise `_insertIterative`. -/
def insert {α : Type} (cmp : Comparator α) (isNull : α → Bool) (v : α)
    (s : TreeState α) : Except String (TreeState α) :=
  if isNull v then Except.error "Cannot insert null or undefined value"
  else if isEmpty s then
    let np := createNode s.pool v
    Except.ok ⟨np.1, 1, np.2⟩
  else
    let res := insertIter cmp v s.root s.pool
    Except.ok ⟨res.1, if res.2.2 then s.size + 1 else s.size, res.2.1⟩

/-- `_searchIterative(value)`: returns the stored value on a comparator-zero
match, `null` (`none`) otherwise. -/
def searchIterative {α : Type} (cmp : Comparator α) (v : α) : BST α → Option α
  | BST.nil => none
  | BST.node val _ _ l r =>
      let comparison := cmp v val
      if comparison = 0 then some val
      else if comparison < 0 then searchIterative cmp v l
      else searchIterative cmp v r

/-- `search(value)`: soft `null` for an empty tree or null-like input. -/
def search {α : Type} (cmp : Comparator α) (isNull : α → Bool) (v : α)
    (s : TreeState α) : Option α :=
  if isEmpty s || isNull v then none else searchIterative cmp v s.root

/-- `contains(value)`: `search(value) !== null`. -/
def contains {α : Type} (cmp : Comparator α) (isNull : α → Bool) (v : α)
    (s : TreeState α) : Bool :=
  (search cmp isNull v s).isSome

/-- One frame of the explicit traversal stack.  The source pushes node
references; after a node is popped only its `value` and `right` fields are
read, so a frame keeps exactly those two. -/
abbrev Frame (α : Type) := α × BST α

/-- Termination measure for the traversal loop. -/
def ioMeasure {α : Type} (cur : BST α) (stack : List (Frame α)) : Nat :=
  2 * numNodes cur + (stack.map (fun f => 2 * numNodes f.2 + 1)).sum

/-- The loop of `_inOrderIterative`: while the current link is a node, push it
and descend left; at a `null` link pop a frame, emit its value and move to its
right subtree; stop when the stack is empty. -/
def ioLoop {α : Type} : BST α → List (Frame α) → List α → List α
  | BST.node v _ _ l r, stack, acc => ioLoop l ((v, r) :: stack) acc
  | BST.nil, [], acc => acc
  | BST.nil, (v, r) :: stack, acc => ioLoop r stack (acc ++ [v])
termination_by cur stack _ => ioMeasure cur stack
decreasing_by
  all_goals simp [ioMeasure, numNodes]
  all_goals omega

/-- `inOrderTraversal()`: run the iterative loop from the root with an empty
stack and an empty result array (the early return for a `null` root coincides
with the loop's immediate exit). -/
def inOrderTraversal {α : Type} (s : TreeState α) : List α :=
  ioLoop s.root [] []

/-- `toArray()`: alias for `inOrderTraversal()`. -/
def toArray {α : Type} (s : TreeState α) : List α :=
  inOrderTraversal s

/-- `_clearRecursive`: post-order walk returning every node to the pool. -/
def clearRecursive {α : Type} : BST α → Nat → Nat
  | BST.nil, pool => pool
  | BST.node _ _ _ l r, pool => returnNode (clearRecursive r (clearRecursive l pool))

/-- `clear()`. -/
def clear {α : Type} (s : TreeState α) : TreeState α :=
  ⟨BST.nil, 0, clearRecursive s.root s.pool⟩

/-- `_validateBST(node, min, max)`: every value strictly inside the open range
inherited from the ancestors (`none` = the `null` unbounded sentinel). -/
def validateBST {α : Type} (cmp : Comparator α) :
    BST α → Option α → Option α → Bool
  | BST.nil, _, _ => true
  | BST.node v _ _ l r, mi, ma =>
      (match mi with
       | none => true
       | some m => decide (0 < cmp v m)) &&
      (match ma with
       | none => true
       | some m => decide (cmp v m < 0)) &&
      validateBST cmp l mi (some v) &&
      validateBST cmp r (some v) ma

/-- `isValidBST()`. -/
def isValidBST {α : Type} (cmp : Comparator α) (s : TreeState α) : Bool :=
  validateBST cmp s.root none none

/-- The successor-removal loop of the two-children case of `_removeIterative`,
on the components of the right child of the target.  The loop walks
`successor = successor.left` keeping `successorParent` one step behind; the
unlinked successor goes through `_returnNode`, and `_updateHeightChain`
invalidates the successor's parent's bit.  Returns the successor's value, the
rebuilt subtree, the new pool, and whether the successor was this very node
(i.e. `successorParent === current`, in which case the caller — the target —
relinks its own `right` and has its own bit invalidated). -/
def removeLeftmost {α : Type} :
    BST α → α → Int → Bool → BST α → Nat → α × BST α × Nat × Bool
  | BST.nil, v, _, _, r, pool => (v, r, returnNode pool, true)
  | BST.node lv lc lb ll lr, v, c, b, r, pool =>
      let res := removeLeftmost ll lv lc lb lr pool
      if res.2.2.2 then (res.1, BST.node v c false res.2.1 r, res.2.2.1, false)
      else (res.1, BST.node v c b res.2.1 r, res.2.2.1, false)

/-- Result of `_removeIterative` on a subtree.  `replaced t` means the target
was the root of this subtree with at most one child: the parent must put `t`
in the corresponding slot and gets its bit invalidated (`_updateHeightChain
(parent)`); at top level the tree root simply becomes `t`.  `done t` means the
removal was completed inside the subtree (target found deeper, or the
two-children case, which rewrites the target in place): ancestors are
untouched, bits included. -/
inductive RRes (α : Type) where
  | notFound : RRes α
  | replaced (t : BST α) : RRes α
  | done (t : BST α) : RRes α

/-- `_removeIterative` (without the enclosing `_size` bookkeeping, which lives
in `remove`): iterative comparator search for the target, then the three cases
on child count.  In the leaf and one-child cases the removed node goes through
`_returnNode` and the parent relinks; in the two-children case the in-order
successor's value overwrites the target's value slot and the successor node is
unlinked and returned to the pool. -/
def removeIter {α : Type} (cmp : Comparator α) (v : α) :
    BST α → Nat → RRes α × Nat
  | BST.nil, pool => (RRes.notFound, pool)
  | BST.node val c b l r, pool =>
      if cmp v val = 0 then
        match l, r with
        | BST.nil, BST.nil => (RRes.replaced BST.nil, returnNode pool)
        | BST.nil, BST.node rv rc rb rl rr =>
            (RRes.replaced (BST.node rv rc rb rl rr), returnNode pool)
        | BST.node lv lc lb ll lr, BST.nil =>
            (RRes.replaced (BST.node lv lc lb ll lr), returnNode pool)
        | BST.node lv lc lb ll lr, BST.node rv rc rb rl rr =>
            let res := removeLeftmost rl rv rc rb rr pool
            if res.2.2.2 then
              (RRes.done (BST.node res.1 c false (BST.node lv lc lb ll lr)
                res.2.1), res.2.2.1)
            else
              (RRes.done (BST.node res.1 c b (BST.node lv lc lb ll lr)
                res.2.1), res.2.2.1)
      else if cmp v val < 0 then
        let res := removeIter cmp v l pool
        match res.1 with
        | RRes.notFound => (RRes.notFound, res.2)
        | RRes.replaced t => (RRes.done (BST.node val c false t r), res.2)
        | RRes.done t => (RRes.done (BST.node val c b t r), res.2)
      else
        let res := removeIter cmp v r pool
        match res.1 with
        | RRes.notFound => (RRes.notFound, res.2)
        | RRes.replaced t => (RRes.done (BST.node val c false l t), res.2)
        | RRes.done t => (RRes.done (BST.node val c b l t), res.2)

/-- `remove(value)`: `false` without mutation for an empty tree or null-like
input; otherwise runs `_removeIterative` on the root, decrements `_size`
exactly when a node was found, and reports `_size < initialSize`. -/
def remove {α : Type} (cmp : Comparator α) (isNull : α → Bool) (v : α)
    (s : TreeState α) : Bool × TreeState α :=
  if isEmpty s || isNull v then (false, s)
  else
    let res := removeIter cmp v s.root s.pool
    match res.1 with
    | RRes.notFound => (false, ⟨s.root, s.size, res.2⟩)
    | RRes.replaced t => (true, ⟨t, s.size - 1, res.2⟩)
    | RRes.done t => (true, ⟨t, s.size - 1, res.2⟩)

/-- One public mutating operation, for stating properties of operation
sequences. -/
inductive Op (α : Type) where
  | ins (v : α) : Op α
  | del (v : α) : Op α

/-- Run a sequence of `insert`/`remove` calls; an `insert` that throws aborts
the run with its error. -/
def runOps {α : Type} (cmp : Comparator α) (isNull : α → Bool) :
    TreeState α → List (Op α) → Except String (TreeState α)
  | s, [] => Except.ok s
  | s, Op.ins v :: rest =>
      match insert cmp isNull v s with
      | Except.ok s2 => runOps cmp isNull s2 rest
      | Except.error e => Except.error e
  | s, Op.del v :: rest => runOps cmp isNull (remove cmp isNull v s).2 rest

/-!
## The concrete instantiation used by the scenarios

Values are `Option Int`: `none` models the JavaScript `null` (and an
`undefined` stored in a slot), `some n` a number.  `defaultCmp` is the default
comparator of `_getDefaultComparator` for numbers: the null checks first
(`0` when both are null-like, a null-like value sorts below a number), then the
numeric fast path `x - y`. -/

/-- JavaScript `value == null`. -/
def isNullOpt : Option Int → Bool
  | none => true
  | some _ => false

/-- JavaScript falsiness on our value domain: `null`/`undefined` and `0` are
falsy. -/
def falsyOpt : Option Int → Bool
  | none => true
  | some n => decide (n = 0)

/-- The default comparator for numbers, including its null branch. -/
def defaultCmp : Comparator (Option Int)
  | none, none => 0
  | none, some _ => -1
  | some _, none => 1
  | some a, some b => a - b

/-- The comparator contract of the specification: a strict total order whose
ties are equality ("ties are equal, duplicates rejected"). -/
structure IsStrictCmp {α : Type} (cmp : Comparator α) : Prop where
  zero_iff : ∀ a b, cmp a b = 0 ↔ a = b
  neg_iff : ∀ a b, cmp a b < 0 ↔ 0 < cmp b a
  trans : ∀ a b c, cmp a b < 0 → cmp b c < 0 → cmp a c < 0

/-- The strict order induced by a comparator. -/
def cmpLt {α : Type} (cmp : Comparator α) (a b : α) : Prop := cmp a b < 0

/-- `x` is strictly above the inherited lower bound (`none` = unbounded). -/
def okLo {α : Type} (cmp : Comparator α) (mi : Option α) (x : α) : Prop :=
  ∀ m, mi = some m → cmp m x < 0

/-- `x` is strictly below the inherited upper bound (`none` = unbounded). -/
def okHi {α : Type} (cmp : Comparator α) (ma : Option α) (x : α) : Prop :=
  ∀ m, ma = some m → cmp x m < 0

/-- The specification's running invariant: the tree validates and `_size`
agrees with the number of stored values. -/
def Inv {α : Type} (cmp : Comparator α) (s : TreeState α) : Prop :=
  isValidBST cmp s = true ∧ s.size = ((inOrder s.root).length : Int)


/-- Decidable equality of call results (needed to evaluate the concrete
scenarios by `decide`). -/
instance {ε α : Type} [DecidableEq ε] [DecidableEq α] :
    DecidableEq (Except ε α) := fun a b =>
  match a, b with
  | Except.ok x, Except.ok y =>
      if h : x = y then isTrue (by rw [h]) else isFalse (by simp [h])
  | Except.error x, Except.error y =>
      if h : x = y then isTrue (by rw [h]) else isFalse (by simp [h])
  | Except.ok _, Except.error _ => isFalse (by simp)
  | Except.error _, Except.ok _ => isFalse (by simp)

/-- Run a list of numbers as `insert` operations. -/
def insOpsOf (l : List Int) : List (Op (Option Int)) :=
  l.map (fun n => Op.ins (some n))

/-- Extract the state of a successful call, with a default for the (never
taken) error branch of the concrete scenarios. -/
def getOk {α : Type} (d : TreeState α) : Except String (TreeState α) → TreeState α
  | Except.ok s => s
  | Except.error _ => d

/-- Scenario A: insert 50, 25, 75, 10, 30, 60, 80 into a fresh tree (empty
shared pool). -/
def scenarioAOps : List (Op (Option Int)) := insOpsOf [50, 25, 75, 10, 30, 60, 80]

/-- The tree of Scenario A. -/
def scenarioA : TreeState (Option Int) :=
  getOk (mkBST none 0) (runOps defaultCmp isNullOpt (mkBST none 0) scenarioAOps)

/-- Height-staleness scenario, step 1: insert 50 then 25. -/
def c6s1 : TreeState (Option Int) :=
  getOk (mkBST none 0) (runOps defaultCmp isNullOpt (mkBST none 0) (insOpsOf [50, 25]))

/-- Step 2: read the `height` getter (which fills the caches). -/
def c6s2 : TreeState (Option Int) := readHeight c6s1

/-- Step 3: insert 10 (invalidates only the bit of node 25, not the root). -/
def c6s3 : TreeState (Option Int) :=
  getOk c6s2 (insert defaultCmp isNullOpt (some 10) c6s2)

/-- Step 4: insert 60 (invalidates the root's bit, unsticking the getter). -/
def c6s4 : TreeState (Option Int) :=
  getOk c6s3 (insert defaultCmp isNullOpt (some 60) c6s3)

/-- The tree obtained by a single `insert(10)` on an empty tree. -/
def c4one : TreeState (Option Int) :=
  getOk (mkBST none 0) (insert defaultCmp isNullOpt (some 10) (mkBST none 0))

/-- The tree holding exactly the number 0 (a falsy value). -/
def c8state : TreeState (Option Int) :=
  getOk (mkBST none 0) (insert defaultCmp isNullOpt (some 0) (mkBST none 0))

/-- The default numeric comparator is a strict total order on the non-null
values and sorts `null` below every number; on the whole domain it satisfies
the contract. -/
theorem defaultCmp_strict : IsStrictCmp defaultCmp := by
  constructor
  · intro a b
    cases a <;> cases b <;> simp [defaultCmp] <;> omega
  · intro a b
    cases a <;> cases b <;> simp [defaultCmp] <;> omega
  · intro a b c
    cases a <;> cases b <;> cases c <;> simp [defaultCmp] <;> omega

/-!
## Basic theory

`cmpLt` is the strict order induced by a comparator; under `IsStrictCmp` it is
irreflexive, asymmetric, transitive and total on distinct values.
-/

theorem cmpLt_irrefl {α : Type} {cmp : Comparator α} (hc : IsStrictCmp cmp)
    (a : α) : ¬ cmpLt cmp a a := by
  intro h
  have h0 : cmp a a = 0 := (hc.zero_iff a a).mpr rfl
  simp [cmpLt, h0] at h

theorem cmpLt_asymm {α : Type} {cmp : Comparator α} (hc : IsStrictCmp cmp)
    {a b : α} (h : cmpLt cmp a b) : ¬ cmpLt cmp b a := by
  intro h2
  have := (hc.neg_iff a b).mp h
  simp only [cmpLt] at h2
  omega

theorem cmpLt_ne {α : Type} {cmp : Comparator α} (hc : IsStrictCmp cmp)
    {a b : α} (h : cmpLt cmp a b) : a ≠ b := by
  intro he
  subst he
  exact cmpLt_irrefl hc a h

theorem cmpLt_total {α : Type} {cmp : Comparator α} (hc : IsStrictCmp cmp)
    {a b : α} (h : cmp a b ≠ 0) : cmpLt cmp a b ∨ cmpLt cmp b a := by
  rcases lt_trichotomy (cmp a b) 0 with h1 | h1 | h1
  · exact Or.inl h1
  · exact absurd h1 h
  · exact Or.inr ((hc.neg_iff b a).mpr h1)

/-!
### The iterative traversal computes the in-order list
-/

theorem ioLoop_eq {α : Type} (t : BST α) (stack : List (Frame α)) (acc : List α) :
    ioLoop t stack acc =
      acc ++ inOrder t ++ (stack.map (fun f => f.1 :: inOrder f.2)).flatten := by
  induction t, stack, acc using ioLoop.induct with
  | case1 v c b l r stack acc ih =>
      rw [ioLoop, ih]
      simp [inOrder]
  | case2 acc =>
      rw [ioLoop]
      simp [inOrder]
  | case3 v r stack acc ih =>
      rw [ioLoop, ih]
      simp [inOrder]

/-- `inOrderTraversal()` returns exactly the in-order list of the root. -/
theorem inOrderTraversal_eq {α : Type} (s : TreeState α) :
    inOrderTraversal s = inOrder s.root := by
  rw [inOrderTraversal, ioLoop_eq]
  simp

/-!
### Characterisation of `_validateBST` by the in-order list
-/

theorem lo_check_iff {α : Type} {cmp : Comparator α} (hc : IsStrictCmp cmp)
    (mi : Option α) (v : α) :
    (match mi with
     | none => true
     | some m => decide (0 < cmp v m)) = true ↔ okLo cmp mi v := by
  cases mi with
  | none => simp [okLo]
  | some m =>
      simp only [decide_eq_true_eq]
      constructor
      · intro h m2 hm
        obtain rfl : m = m2 := Option.some.inj hm
        exact (hc.neg_iff m v).mpr h
      · intro h
        exact (hc.neg_iff m v).mp (h m rfl)

theorem hi_check_iff {α : Type} (cmp : Comparator α) (ma : Option α) (v : α) :
    (match ma with
     | none => true
     | some m => decide (cmp v m < 0)) = true ↔ okHi cmp ma v := by
  cases ma with
  | none => simp [okHi]
  | some m =>
      simp only [decide_eq_true_eq]
      constructor
      · intro h m2 hm
        obtain rfl : m = m2 := Option.some.inj hm
        exact h
      · intro h
        exact h m rfl

/-- `_validateBST(t, mi, ma)` succeeds exactly when the in-order list of `t` is
strictly increasing for the comparator and all its members lie strictly inside
the open interval `(mi, ma)`. -/
theorem validate_iff {α : Type} {cmp : Comparator α} (hc : IsStrictCmp cmp)
    (t : BST α) (mi ma : Option α) :
    validateBST cmp t mi ma = true ↔
      List.Pairwise (cmpLt cmp) (inOrder t) ∧
        ∀ x ∈ inOrder t, okLo cmp mi x ∧ okHi cmp ma x := by
  induction t generalizing mi ma with
  | nil => simp [validateBST, inOrder]
  | node v c b l r ihl ihr =>
      constructor
      · intro h
        simp only [validateBST, Bool.and_eq_true] at h
        obtain ⟨⟨⟨hlo, hhi⟩, hl⟩, hr⟩ := h
        rw [lo_check_iff hc] at hlo
        rw [hi_check_iff] at hhi
        obtain ⟨hpl, hbl⟩ := (ihl _ _).mp hl
        obtain ⟨hpr, hbr⟩ := (ihr _ _).mp hr
        have hlv : ∀ x ∈ inOrder l, cmpLt cmp x v := fun x hx => (hbl x hx).2 v rfl
        have hvr : ∀ y ∈ inOrder r, cmpLt cmp v y := fun y hy => (hbr y hy).1 v rfl
        constructor
        · rw [inOrder, List.pairwise_append]
          refine ⟨hpl, ?_, ?_⟩
          · rw [List.pairwise_cons]
            exact ⟨hvr, hpr⟩
          · intro a ha b hb
            rcases List.mem_cons.mp hb with rfl | hb2
            · exact hlv a ha
            · exact hc.trans _ _ _ (hlv a ha) (hvr b hb2)
        · intro x hx
          rw [inOrder] at hx
          rcases List.mem_append.mp hx with hx1 | hx2
          · exact ⟨(hbl x hx1).1, fun m hm => hc.trans _ _ _ (hlv x hx1) (hhi m hm)⟩
          · rcases List.mem_cons.mp hx2 with rfl | hx3
            · exact ⟨hlo, hhi⟩
            · exact ⟨fun m hm => hc.trans _ _ _ (hlo m hm) (hvr x hx3), (hbr x hx3).2⟩
      · intro h
        obtain ⟨hp, hb⟩ := h
        rw [inOrder] at hp hb
        rw [List.pairwise_append] at hp
        obtain ⟨hpl, hpvr, hcross⟩ := hp
        rw [List.pairwise_cons] at hpvr
        obtain ⟨hvr, hpr⟩ := hpvr
        have hvB := hb v (by simp)
        simp only [validateBST, Bool.and_eq_true]
        refine ⟨⟨⟨?_, ?_⟩, ?_⟩, ?_⟩
        · rw [lo_check_iff hc]
          exact hvB.1
        · rw [hi_check_iff]
          exact hvB.2
        · rw [ihl]
          refine ⟨hpl, fun x hx => ⟨(hb x (by simp [hx])).1, fun m hm => ?_⟩⟩
          obtain rfl : v = m := Option.some.inj hm
          exact hcross x hx v (by simp)
        · rw [ihr]
          refine ⟨hpr, fun y hy => ⟨fun m hm => ?_, (hb y (by simp [hy])).2⟩⟩
          obtain rfl : v = m := Option.some.inj hm
          exact hvr y hy

/-!
### Insertion
-/

theorem createNode_inOrder {α : Type} (pool : Nat) (v : α) :
    inOrder (createNode pool v).1 = [v] := by
  rw [createNode]
  by_cases h : pool ≠ 0 <;> simp [h, inOrder]

theorem createNode_pool_le {α : Type} (pool : Nat) (v : α) :
    (createNode pool v).2 ≤ pool := by
  rw [createNode]
  by_cases h : pool ≠ 0 <;> simp [h]

theorem createNode_validate {α : Type} {cmp : Comparator α}
    (hc : IsStrictCmp cmp) (pool : Nat) (v : α) (mi ma : Option α)
    (hlo : okLo cmp mi v) (hhi : okHi cmp ma v) :
    validateBST cmp (createNode pool v).1 mi ma = true := by
  rw [createNode]
  by_cases h : pool ≠ 0 <;>
    simp [h, validateBST, (lo_check_iff hc mi v).mpr hlo,
      (hi_check_iff cmp ma v).mpr hhi]

/-- Behaviour of `_insertIterative` on a valid non-empty subtree whose bounds
admit `v`: a comparator-equal value is already present exactly when the walk
is a no-op; otherwise one node is created, the result is a permutation of the
old values plus `v`, and validity within the same bounds is preserved. -/
theorem insertIter_spec {α : Type} {cmp : Comparator α} (hc : IsStrictCmp cmp)
    (v : α) (t : BST α) (pool : Nat) (mi ma : Option α)
    (hv : validateBST cmp t mi ma = true)
    (hlo : okLo cmp mi v) (hhi : okHi cmp ma v) (hne : t ≠ BST.nil) :
    (v ∈ inOrder t → insertIter cmp v t pool = (t, pool, false)) ∧
    (v ∉ inOrder t →
      ∃ t2, insertIter cmp v t pool = (t2, (createNode pool v).2, true) ∧
        (inOrder t2).Perm (v :: inOrder t) ∧
        validateBST cmp t2 mi ma = true) := by
  induction t generalizing mi ma with
  | nil => exact absurd rfl hne
  | node val c b l r ihl ihr =>
      simp only [validateBST, Bool.and_eq_true] at hv
      obtain ⟨⟨⟨hloV, hhiV⟩, hvl⟩, hvr⟩ := hv
      rw [lo_check_iff hc] at hloV
      rw [hi_check_iff] at hhiV
      have hboundsL := ((validate_iff hc l mi (some val)).mp hvl).2
      have hboundsR := ((validate_iff hc r (some val) ma).mp hvr).2
      have hLlt : ∀ x ∈ inOrder l, cmp x val < 0 := fun x hx =>
        (hboundsL x hx).2 val rfl
      have hRgt : ∀ y ∈ inOrder r, cmp val y < 0 := fun y hy =>
        (hboundsR y hy).1 val rfl
      rcases lt_trichotomy (cmp v val) 0 with hcmp | hcmp | hcmp
      · -- walk left
        have hnz : ¬ (cmp v val = 0) := by omega
        have hnotr : v ∉ inOrder r := by
          intro hvy
          exact absurd hcmp (cmpLt_asymm hc (hRgt v hvy))
        have hnev : v ≠ val := fun he => hnz ((hc.zero_iff v val).mpr he)
        have hmem : v ∈ inOrder (BST.node val c b l r) ↔ v ∈ inOrder l := by
          simp only [inOrder, List.mem_append, List.mem_cons]
          constructor
          · rintro (h | rfl | h)
            · exact h
            · exact absurd rfl hnev
            · exact absurd h hnotr
          · exact fun h => Or.inl h
        have hokhi : okHi cmp (some val) v := by
          intro m hm
          obtain rfl : val = m := Option.some.inj hm
          exact hcmp
        cases l with
        | nil =>
            have hnomem : v ∉ inOrder (BST.node val c b BST.nil r) := by
              rw [hmem]
              simp [inOrder]
            refine ⟨fun h => absurd h hnomem, fun _ => ?_⟩
            refine ⟨BST.node val c false (createNode pool v).1 r, ?_, ?_, ?_⟩
            · rw [insertIter.eq_def]
              simp [hnz, hcmp]
            · simp [inOrder, createNode_inOrder]
            · simp only [validateBST, Bool.and_eq_true]
              refine ⟨⟨⟨?_, ?_⟩, ?_⟩, hvr⟩
              · rw [lo_check_iff hc]
                exact hloV
              · rw [hi_check_iff]
                exact hhiV
              · exact createNode_validate hc pool v mi (some val) hlo hokhi
        | node lv lc lb ll lr =>
            obtain ⟨ihMem, ihNew⟩ :=
              ihl mi (some val) hvl hlo hokhi (by simp)
            constructor
            · intro h
              have hvl2 := hmem.mp h
              rw [insertIter.eq_def]
              simp [hnz, hcmp, ihMem hvl2]
            · intro h
              have hvl2 : v ∉ inOrder (BST.node lv lc lb ll lr) :=
                fun hx => h (hmem.mpr hx)
              obtain ⟨l2, heq, hperm, hval2⟩ := ihNew hvl2
              refine ⟨BST.node val c b l2 r, ?_, ?_, ?_⟩
              · rw [insertIter.eq_def]
                simp [hnz, hcmp, heq]
              · simpa [inOrder] using
                  hperm.append_right (val :: inOrder r)
              · simp only [validateBST, Bool.and_eq_true]
                refine ⟨⟨⟨?_, ?_⟩, hval2⟩, hvr⟩
                · rw [lo_check_iff hc]
                  exact hloV
                · rw [hi_check_iff]
                  exact hhiV
      · -- comparator zero: silent no-op
        obtain rfl : v = val := (hc.zero_iff v val).mp hcmp
        have hmem : v ∈ inOrder (BST.node v c b l r) := by
          simp [inOrder]
        refine ⟨fun _ => ?_, fun h => absurd hmem h⟩
        rw [insertIter.eq_def]
        simp [hcmp]
      · -- walk right
        have hnz : ¬ (cmp v val = 0) := by omega
        have hnlt : ¬ (cmp v val < 0) := by omega
        have hnotl : v ∉ inOrder l := by
          intro hvy
          have h1 := hLlt v hvy
          have h2 := (hc.neg_iff val v).mpr hcmp
          omega
        have hnev : v ≠ val := fun he => hnz ((hc.zero_iff v val).mpr he)
        have hmem : v ∈ inOrder (BST.node val c b l r) ↔ v ∈ inOrder r := by
          simp only [inOrder, List.mem_append, List.mem_cons]
          constructor
          · rintro (h | rfl | h)
            · exact absurd h hnotl
            · exact absurd rfl hnev
            · exact h
          · exact fun h => Or.inr (Or.inr h)
        have hoklo : okLo cmp (some val) v := by
          intro m hm
          obtain rfl : val = m := Option.some.inj hm
          exact (hc.neg_iff val v).mpr hcmp
        cases r with
        | nil =>
            have hnomem : v ∉ inOrder (BST.node val c b l BST.nil) := by
              rw [hmem]
              simp [inOrder]
            refine ⟨fun h => absurd h hnomem, fun _ => ?_⟩
            refine ⟨BST.node val c false l (createNode pool v).1, ?_, ?_, ?_⟩
            · rw [insertIter.eq_def]
              simp [hnz, hnlt]
            · have hmid := @List.perm_middle α v (inOrder l ++ [val]) []
              simpa [inOrder, createNode_inOrder] using hmid
            · simp only [validateBST, Bool.and_eq_true]
              refine ⟨⟨⟨?_, ?_⟩, hvl⟩, ?_⟩
              · rw [lo_check_iff hc]
                exact hloV
              · rw [hi_check_iff]
                exact hhiV
              · exact createNode_validate hc pool v (some val) ma hoklo hhi
        | node rv rc rb rl rr =>
            obtain ⟨ihMem, ihNew⟩ :=
              ihr (some val) ma hvr hoklo hhi (by simp)
            constructor
            · intro h
              have hvr2 := hmem.mp h
              rw [insertIter.eq_def]
              simp [hnz, hnlt, ihMem hvr2]
            · intro h
              have hvr2 : v ∉ inOrder (BST.node rv rc rb rl rr) :=
                fun hx => h (hmem.mpr hx)
              obtain ⟨r2, heq, hperm, hval2⟩ := ihNew hvr2
              refine ⟨BST.node val c b l r2, ?_, ?_, ?_⟩
              · rw [insertIter.eq_def]
                simp [hnz, hnlt, heq]
              · have step1 :
                    (inOrder l ++ val :: inOrder r2).Perm
                      (inOrder l ++ val :: v ::
                        inOrder (BST.node rv rc rb rl rr)) :=
                  (hperm.cons val).append_left (inOrder l)
                have step2 :
                    (inOrder l ++ val :: v ::
                      inOrder (BST.node rv rc rb rl rr)).Perm
                      (v :: (inOrder l ++ val ::
                        inOrder (BST.node rv rc rb rl rr))) := by
                  have hmid := @List.perm_middle α v
                    (inOrder l ++ [val]) (inOrder (BST.node rv rc rb rl rr))
                  simpa using hmid
                simpa [inOrder] using step1.trans step2
              · simp only [validateBST, Bool.and_eq_true]
                refine ⟨⟨⟨?_, ?_⟩, hvl⟩, hval2⟩
                · rw [lo_check_iff hc]
                  exact hloV
                · rw [hi_check_iff]
                  exact hhiV

/-!
### Removal
-/

theorem validate_weaken_lo {α : Type} {cmp : Comparator α}
    (hc : IsStrictCmp cmp) {t : BST α} {ma : Option α} {w : α}
    (mi : Option α) (h : validateBST cmp t (some w) ma = true)
    (hw : okLo cmp mi w) : validateBST cmp t mi ma = true := by
  rw [validate_iff hc] at h ⊢
  refine ⟨h.1, fun x hx => ⟨?_, (h.2 x hx).2⟩⟩
  intro m hm
  exact hc.trans _ _ _ (hw m hm) ((h.2 x hx).1 w rfl)

theorem validate_weaken_hi {α : Type} {cmp : Comparator α}
    (hc : IsStrictCmp cmp) {t : BST α} {mi : Option α} {w : α}
    (ma : Option α) (h : validateBST cmp t mi (some w) = true)
    (hw : okHi cmp ma w) : validateBST cmp t mi ma = true := by
  rw [validate_iff hc] at h ⊢
  refine ⟨h.1, fun x hx => ⟨(h.2 x hx).1, ?_⟩⟩
  intro m hm
  exact hc.trans _ _ _ ((h.2 x hx).2 w rfl) (hw m hm)

/-- The successor-removal loop returns the head of the in-order sequence of
the subtree it runs on, the subtree holding the remaining values in order, and
the pool after exactly one `_returnNode`. -/
theorem removeLeftmost_spec {α : Type} (l : BST α) :
    ∀ (v : α) (c : Int) (b : Bool) (r : BST α) (pool : Nat),
      (removeLeftmost l v c b r pool).1 ::
          inOrder (removeLeftmost l v c b r pool).2.1 =
        inOrder (BST.node v c b l r) ∧
      (removeLeftmost l v c b r pool).2.2.1 = returnNode pool := by
  induction l with
  | nil =>
      intro v c b r pool
      rw [removeLeftmost]
      simp [inOrder]
  | node lv lc lb ll lr ihll ihlr =>
      intro v c b r pool
      obtain ⟨hseq, hpool⟩ := ihll lv lc lb lr pool
      rw [removeLeftmost]
      by_cases hw : (removeLeftmost ll lv lc lb lr pool).2.2.2
      · rw [if_pos hw]
        refine ⟨?_, hpool⟩
        simpa [inOrder] using congrArg (fun x => x ++ v :: inOrder r) hseq
      · rw [if_neg hw]
        refine ⟨?_, hpool⟩
        simpa [inOrder] using congrArg (fun x => x ++ v :: inOrder r) hseq

theorem inOrder_node {α : Type} (a : α) (c : Int) (b : Bool) (x y : BST α) :
    inOrder (BST.node a c b x y) = inOrder x ++ a :: inOrder y := rfl

/-- Behaviour of `_removeIterative` on a valid subtree: an absent value leaves
the tree and the pool untouched and reports "not found"; a present value
yields a subtree holding exactly the old values with one occurrence of `v`
erased, still valid within the same bounds, and one node went through
`_returnNode`. -/
theorem removeIter_spec {α : Type} [DecidableEq α] {cmp : Comparator α}
    (hc : IsStrictCmp cmp) (v : α) (t : BST α) (pool : Nat)
    (mi ma : Option α) (hv : validateBST cmp t mi ma = true) :
    (v ∉ inOrder t → removeIter cmp v t pool = (RRes.notFound, pool)) ∧
    (v ∈ inOrder t → ∃ t2,
      ((removeIter cmp v t pool).1 = RRes.replaced t2 ∨
        (removeIter cmp v t pool).1 = RRes.done t2) ∧
      (removeIter cmp v t pool).2 = returnNode pool ∧
      inOrder t2 = (inOrder t).erase v ∧
      validateBST cmp t2 mi ma = true) := by
  induction t generalizing mi ma with
  | nil =>
      refine ⟨fun _ => ?_, fun h => absurd h (by simp [inOrder])⟩
      rw [removeIter]
  | node val c b l r ihl ihr =>
      have hvOrig := hv
      simp only [validateBST, Bool.and_eq_true] at hv
      obtain ⟨⟨⟨hloV, hhiV⟩, hvl⟩, hvr⟩ := hv
      rw [lo_check_iff hc] at hloV
      rw [hi_check_iff] at hhiV
      have hboundsL := ((validate_iff hc l mi (some val)).mp hvl).2
      have hboundsR := ((validate_iff hc r (some val) ma).mp hvr).2
      have hLlt : ∀ x ∈ inOrder l, cmp x val < 0 := fun x hx =>
        (hboundsL x hx).2 val rfl
      have hRgt : ∀ y ∈ inOrder r, cmp val y < 0 := fun y hy =>
        (hboundsR y hy).1 val rfl
      have hvalNotL : val ∉ inOrder l := fun hx =>
        cmpLt_irrefl hc val (hLlt val hx)
      rcases lt_trichotomy (cmp v val) 0 with hcmp | hcmp | hcmp
      · -- walk left
        have hnz : ¬ (cmp v val = 0) := by omega
        have hnotr : v ∉ inOrder r := fun hvy =>
          absurd hcmp (cmpLt_asymm hc (hRgt v hvy))
        have hnev : v ≠ val := fun he => hnz ((hc.zero_iff v val).mpr he)
        have hmem : v ∈ inOrder (BST.node val c b l r) ↔ v ∈ inOrder l := by
          simp only [inOrder, List.mem_append, List.mem_cons]
          constructor
          · rintro (h | rfl | h)
            · exact h
            · exact absurd rfl hnev
            · exact absurd h hnotr
          · exact fun h => Or.inl h
        obtain ⟨ihN, ihY⟩ := ihl mi (some val) hvl
        constructor
        · intro h
          have h2 : v ∉ inOrder l := fun hx => h (hmem.mpr hx)
          rw [removeIter.eq_def]
          simp [hnz, hcmp, ihN h2]
        · intro h
          have hvL := hmem.mp h
          obtain ⟨l2, hor, hpool, herase, hval2⟩ := ihY hvL
          have hio : inOrder (BST.node val c b l2 r) =
              (inOrder (BST.node val c b l r)).erase v := by
            rw [inOrder_node, inOrder_node,
              List.erase_append_left _ hvL, ← herase]
          have hvalid : validateBST cmp (BST.node val c b l2 r) mi ma
              = true := by
            simp only [validateBST, Bool.and_eq_true]
            exact ⟨⟨⟨(lo_check_iff hc mi val).mpr hloV,
              (hi_check_iff cmp ma val).mpr hhiV⟩, hval2⟩, hvr⟩
          rcases hor with heq | heq
          · refine ⟨BST.node val c false l2 r, Or.inr ?_, ?_, ?_, ?_⟩
            · rw [removeIter.eq_def]
              simp [hnz, hcmp, heq]
            · rw [removeIter.eq_def]
              simp [hnz, hcmp, heq, hpool]
            · rw [inOrder_node, inOrder_node,
                List.erase_append_left _ hvL, ← herase]
            · simp only [validateBST, Bool.and_eq_true]
              exact ⟨⟨⟨(lo_check_iff hc mi val).mpr hloV,
                (hi_check_iff cmp ma val).mpr hhiV⟩, hval2⟩, hvr⟩
          · refine ⟨BST.node val c b l2 r, Or.inr ?_, ?_, hio, hvalid⟩
            · rw [removeIter.eq_def]
              simp [hnz, hcmp, heq]
            · rw [removeIter.eq_def]
              simp [hnz, hcmp, heq, hpool]
      · -- comparator zero: this node is removed
        obtain rfl : v = val := (hc.zero_iff v val).mp hcmp
        have hmemv : v ∈ inOrder (BST.node v c b l r) := by simp [inOrder]
        refine ⟨fun h => absurd hmemv h, fun _ => ?_⟩
        cases l with
        | nil =>
            cases r with
            | nil =>
                refine ⟨BST.nil, Or.inl ?_, ?_, ?_, by simp [validateBST]⟩
                · rw [removeIter.eq_def]
                  simp [hcmp]
                · rw [removeIter.eq_def]
                  simp [hcmp]
                · simp [inOrder]
            | node rv rc rb rl rr =>
                refine ⟨BST.node rv rc rb rl rr, Or.inl ?_, ?_, ?_, ?_⟩
                · rw [removeIter.eq_def]
                  simp [hcmp]
                · rw [removeIter.eq_def]
                  simp [hcmp]
                · rw [inOrder_node]
                  simp [inOrder]
                · exact validate_weaken_lo hc mi hvr hloV
        | node lv lc lb ll lr =>
            cases r with
            | nil =>
                refine ⟨BST.node lv lc lb ll lr, Or.inl ?_, ?_, ?_, ?_⟩
                · rw [removeIter.eq_def]
                  simp [hcmp]
                · rw [removeIter.eq_def]
                  simp [hcmp]
                · conv_rhs => rw [inOrder_node]
                  rw [List.erase_append_right _ hvalNotL]
                  simp [inOrder]
                · exact validate_weaken_hi hc ma hvl hhiV
            | node rv rc rb rl rr =>
                obtain ⟨hseq, hpool⟩ := removeLeftmost_spec rl rv rc rb rr pool
                have hvR := (validate_iff hc (BST.node rv rc rb rl rr)
                  (some v) ma).mp hvr
                have hio2 : ∀ (bit : Bool),
                    inOrder (BST.node
                      (removeLeftmost rl rv rc rb rr pool).1 c bit
                      (BST.node lv lc lb ll lr)
                      (removeLeftmost rl rv rc rb rr pool).2.1) =
                    (inOrder (BST.node v c b (BST.node lv lc lb ll lr)
                      (BST.node rv rc rb rl rr))).erase v := by
                  intro bit
                  conv_lhs => rw [inOrder_node]
                  conv_rhs => rw [inOrder_node]
                  rw [List.erase_append_right _ hvalNotL,
                    List.erase_cons_head, ← hseq]
                have hvalid2 : ∀ (bit : Bool),
                    validateBST cmp (BST.node
                      (removeLeftmost rl rv rc rb rr pool).1 c bit
                      (BST.node lv lc lb ll lr)
                      (removeLeftmost rl rv rc rb rr pool).2.1) mi ma
                      = true := by
                  intro bit
                  rw [validate_iff hc]
                  have hwhole := (validate_iff hc
                    (BST.node v c b (BST.node lv lc lb ll lr)
                      (BST.node rv rc rb rl rr)) mi ma).mp hvOrig
                  rw [hio2 bit]
                  refine ⟨hwhole.1.sublist (List.erase_sublist _ _), ?_⟩
                  intro x hx
                  exact hwhole.2 x (List.mem_of_mem_erase hx)
                by_cases hw : (removeLeftmost rl rv rc rb rr pool).2.2.2
                · refine ⟨BST.node (removeLeftmost rl rv rc rb rr pool).1 c
                    false (BST.node lv lc lb ll lr)
                    (removeLeftmost rl rv rc rb rr pool).2.1,
                    Or.inr ?_, ?_, hio2 false, hvalid2 false⟩
                  · rw [removeIter.eq_def]
                    simp [hcmp, hw]
                  · rw [removeIter.eq_def]
                    simp [hcmp, hw, hpool]
                · refine ⟨BST.node (removeLeftmost rl rv rc rb rr pool).1 c
                    b (BST.node lv lc lb ll lr)
                    (removeLeftmost rl rv rc rb rr pool).2.1,
                    Or.inr ?_, ?_, hio2 b, hvalid2 b⟩
                  · rw [removeIter.eq_def]
                    simp [hcmp, hw]
                  · rw [removeIter.eq_def]
                    simp [hcmp, hw, hpool]
      · -- walk right
        have hnz : ¬ (cmp v val = 0) := by omega
        have hnlt : ¬ (cmp v val < 0) := by omega
        have hnotl : v ∉ inOrder l := by
          intro hvy
          have h1 := hLlt v hvy
          have h2 := (hc.neg_iff val v).mpr hcmp
          omega
        have hnev : v ≠ val := fun he => hnz ((hc.zero_iff v val).mpr he)
        have hmem : v ∈ inOrder (BST.node val c b l r) ↔ v ∈ inOrder r := by
          simp only [inOrder, List.mem_append, List.mem_cons]
          constructor
          · rintro (h | rfl | h)
            · exact absurd h hnotl
            · exact absurd rfl hnev
            · exact h
          · exact fun h => Or.inr (Or.inr h)
        obtain ⟨ihN, ihY⟩ := ihr (some val) ma hvr
        constructor
        · intro h
          have h2 : v ∉ inOrder r := fun hx => h (hmem.mpr hx)
          rw [removeIter.eq_def]
          simp [hnz, hnlt, ihN h2]
        · intro h
          have hvR := hmem.mp h
          obtain ⟨r2, hor, hpool, herase, hval2⟩ := ihY hvR
          have hio : inOrder (BST.node val c b l r2) =
              (inOrder (BST.node val c b l r)).erase v := by
            rw [inOrder_node, inOrder_node,
              List.erase_append_right _ hnotl,
              List.erase_cons_tail (by
                simp only [beq_iff_eq]
                exact Ne.symm hnev), ← herase]
          have hvalid : validateBST cmp (BST.node val c b l r2) mi ma
              = true := by
            simp only [validateBST, Bool.and_eq_true]
            exact ⟨⟨⟨(lo_check_iff hc mi val).mpr hloV,
              (hi_check_iff cmp ma val).mpr hhiV⟩, hvl⟩, hval2⟩
          have hio' : inOrder (BST.node val c false l r2) =
              (inOrder (BST.node val c b l r)).erase v := hio
          have hvalid' : validateBST cmp (BST.node val c false l r2) mi ma
              = true := hvalid
          rcases hor with heq | heq
          · refine ⟨BST.node val c false l r2, Or.inr ?_, ?_, hio', hvalid'⟩
            · rw [removeIter.eq_def]
              simp [hnz, hnlt, heq]
            · rw [removeIter.eq_def]
              simp [hnz, hnlt, heq, hpool]
          · refine ⟨BST.node val c b l r2, Or.inr ?_, ?_, hio, hvalid⟩
            · rw [removeIter.eq_def]
              simp [hnz, hnlt, heq]
            · rw [removeIter.eq_def]
              simp [hnz, hnlt, heq, hpool]

/-!
### Search
-/

theorem searchIterative_spec {α : Type} {cmp : Comparator α}
    (hc : IsStrictCmp cmp) (v : α) (t : BST α) (mi ma : Option α)
    (hv : validateBST cmp t mi ma = true) :
    (v ∈ inOrder t → searchIterative cmp v t = some v) ∧
    (v ∉ inOrder t → searchIterative cmp v t = none) := by
  induction t generalizing mi ma with
  | nil =>
      refine ⟨fun h => absurd h (by simp [inOrder]), fun _ => ?_⟩
      rw [searchIterative]
  | node val c b l r ihl ihr =>
      simp only [validateBST, Bool.and_eq_true] at hv
      obtain ⟨⟨⟨hloV, hhiV⟩, hvl⟩, hvr⟩ := hv
      have hboundsL := ((validate_iff hc l mi (some val)).mp hvl).2
      have hboundsR := ((validate_iff hc r (some val) ma).mp hvr).2
      have hLlt : ∀ x ∈ inOrder l, cmp x val < 0 := fun x hx =>
        (hboundsL x hx).2 val rfl
      have hRgt : ∀ y ∈ inOrder r, cmp val y < 0 := fun y hy =>
        (hboundsR y hy).1 val rfl
      rcases lt_trichotomy (cmp v val) 0 with hcmp | hcmp | hcmp
      · have hnz : ¬ (cmp v val = 0) := by omega
        have hnotr : v ∉ inOrder r := fun hvy =>
          absurd hcmp (cmpLt_asymm hc (hRgt v hvy))
        have hnev : v ≠ val := fun he => hnz ((hc.zero_iff v val).mpr he)
        have hmem : v ∈ inOrder (BST.node val c b l r) ↔ v ∈ inOrder l := by
          simp only [inOrder, List.mem_append, List.mem_cons]
          constructor
          · rintro (h | rfl | h)
            · exact h
            · exact absurd rfl hnev
            · exact absurd h hnotr
          · exact fun h => Or.inl h
        obtain ⟨ihY, ihN⟩ := ihl mi (some val) hvl
        constructor
        · intro h
          rw [searchIterative.eq_def]
          simp [hnz, hcmp, ihY (hmem.mp h)]
        · intro h
          rw [searchIterative.eq_def]
          simp [hnz, hcmp, ihN (fun hx => h (hmem.mpr hx))]
      · obtain rfl : v = val := (hc.zero_iff v val).mp hcmp
        have hmemv : v ∈ inOrder (BST.node v c b l r) := by simp [inOrder]
        refine ⟨fun _ => ?_, fun h => absurd hmemv h⟩
        rw [searchIterative.eq_def]
        simp [hcmp]
      · have hnz : ¬ (cmp v val = 0) := by omega
        have hnlt : ¬ (cmp v val < 0) := by omega
        have hnotl : v ∉ inOrder l := by
          intro hvy
          have h1 := hLlt v hvy
          have h2 := (hc.neg_iff val v).mpr hcmp
          omega
        have hnev : v ≠ val := fun he => hnz ((hc.zero_iff v val).mpr he)
        have hmem : v ∈ inOrder (BST.node val c b l r) ↔ v ∈ inOrder r := by
          simp only [inOrder, List.mem_append, List.mem_cons]
          constructor
          · rintro (h | rfl | h)
            · exact absurd h hnotl
            · exact absurd rfl hnev
            · exact h
          · exact fun h => Or.inr (Or.inr h)
        obtain ⟨ihY, ihN⟩ := ihr (some val) ma hvr
        constructor
        · intro h
          rw [searchIterative.eq_def]
          simp [hnz, hnlt, ihY (hmem.mp h)]
        · intro h
          rw [searchIterative.eq_def]
          simp [hnz, hnlt, ihN (fun hx => h (hmem.mpr hx))]

/-!
### The state-level invariant
-/

theorem okLo_none {α : Type} (cmp : Comparator α) (v : α) :
    okLo cmp none v := fun _ hm => nomatch hm

theorem okHi_none {α : Type} (cmp : Comparator α) (v : α) :
    okHi cmp none v := fun _ hm => nomatch hm

theorem isEmpty_iff {α : Type} (s : TreeState α) :
    isEmpty s = true ↔ s.root = BST.nil := by
  cases h : s.root <;> simp [isEmpty, h]

theorem pairwise_nodup {α : Type} {cmp : Comparator α} (hc : IsStrictCmp cmp)
    {l : List α} (h : List.Pairwise (cmpLt cmp) l) : l.Nodup :=
  h.imp (fun hab => cmpLt_ne hc hab)

/-- `insert` at state level: a null-like value throws; otherwise the call
succeeds, the invariant is preserved, a present value is a complete no-op and
an absent one adds exactly that value and increments `_size`. -/
theorem insert_spec {α : Type} {cmp : Comparator α} (hc : IsStrictCmp cmp)
    (isNull : α → Bool) (v : α) (s : TreeState α) (hI : Inv cmp s) :
    (isNull v = true →
      insert cmp isNull v s =
        Except.error "Cannot insert null or undefined value") ∧
    (isNull v = false → ∃ s2,
      insert cmp isNull v s = Except.ok s2 ∧ Inv cmp s2 ∧
      (v ∈ inOrder s.root → s2 = s) ∧
      (v ∉ inOrder s.root →
        (inOrder s2.root).Perm (v :: inOrder s.root) ∧
        s2.size = s.size + 1 ∧ s2.pool = (createNode s.pool v).2)) := by
  obtain ⟨hval, hsz⟩ := hI
  constructor
  · intro h
    rw [insert]
    simp [h]
  · intro h
    by_cases hemp : isEmpty s
    · have hnil : s.root = BST.nil := (isEmpty_iff s).mp hemp
      refine ⟨⟨(createNode s.pool v).1, 1, (createNode s.pool v).2⟩, ?_, ?_, ?_, ?_⟩
      · rw [insert]
        simp [h, hemp]
      · constructor
        · exact createNode_validate hc s.pool v none none
            (okLo_none cmp v) (okHi_none cmp v)
        · simp [createNode_inOrder]
      · intro hmem
        rw [hnil] at hmem
        simp [inOrder] at hmem
      · intro _
        refine ⟨?_, ?_, rfl⟩
        · rw [hnil]
          simp [createNode_inOrder, inOrder]
        · rw [hsz, hnil]
          simp [inOrder]
    · have hne : s.root ≠ BST.nil := fun hh => hemp ((isEmpty_iff s).mpr hh)
      obtain ⟨hins, hnew⟩ := insertIter_spec hc v s.root s.pool none none
        hval (okLo_none cmp v) (okHi_none cmp v) hne
      by_cases hmem : v ∈ inOrder s.root
      · refine ⟨s, ?_, ⟨hval, hsz⟩, fun _ => rfl, fun hn => absurd hmem hn⟩
        rw [insert]
        simp only [h, hemp, Bool.false_eq_true, if_false, ite_false,
          hins hmem]
      · obtain ⟨t2, heq, hperm, hval2⟩ := hnew hmem
        refine ⟨⟨t2, s.size + 1, (createNode s.pool v).2⟩, ?_, ?_, ?_, ?_⟩
        · rw [insert]
          simp only [h, hemp, Bool.false_eq_true, if_false, ite_false, heq]
          simp
        · constructor
          · exact hval2
          · have hlen := hperm.length_eq
            simp only [List.length_cons] at hlen
            simp only [TreeState.size]
            rw [hsz]
            simp [hlen]
        · intro hmem2
          exact absurd hmem2 hmem
        · exact fun _ => ⟨hperm, rfl, rfl⟩

theorem contains_iff {α : Type} {cmp : Comparator α} (hc : IsStrictCmp cmp)
    (isNull : α → Bool) (v : α) (s : TreeState α) (hI : Inv cmp s) :
    contains cmp isNull v s = true ↔
      (isNull v = false ∧ v ∈ inOrder s.root) := by
  obtain ⟨hval, _⟩ := hI
  by_cases hguard : isEmpty s || isNull v
  · rw [contains, search, if_pos hguard]
    simp only [Option.isSome_none, Bool.false_eq_true, false_iff]
    rintro ⟨hnn, hmem⟩
    rcases Bool.or_eq_true_iff.mp hguard with hg | hg
    · rw [(isEmpty_iff s).mp hg] at hmem
      simp [inOrder] at hmem
    · rw [hnn] at hg
      exact Bool.false_ne_true hg
  · rw [contains, search, if_neg hguard]
    have hnn : isNull v = false := by
      rcases h2 : isNull v with _ | _
      · rfl
      · exact absurd (by rw [h2]; simp) hguard
    obtain ⟨hY, hN⟩ := searchIterative_spec hc v s.root none none hval
    by_cases hmem : v ∈ inOrder s.root
    · rw [hY hmem]
      simp [hnn, hmem]
    · rw [hN hmem]
      simp [hnn, hmem]

/-- `remove` at state level: removing a present value succeeds, the invariant
is preserved, `_size` drops by one, the stored values lose exactly one
occurrence of `v`, and one retired node goes through `_returnNode`; removing
an absent or null-like value, or from an empty tree, returns `false` with the
state unchanged. -/
theorem remove_spec {α : Type} [DecidableEq α] {cmp : Comparator α}
    (hc : IsStrictCmp cmp) (isNull : α → Bool) (v : α) (s : TreeState α)
    (hI : Inv cmp s) :
    (contains cmp isNull v s = true →
      (remove cmp isNull v s).1 = true ∧
      Inv cmp (remove cmp isNull v s).2 ∧
      (remove cmp isNull v s).2.size = s.size - 1 ∧
      inOrder (remove cmp isNull v s).2.root = (inOrder s.root).erase v ∧
      (remove cmp isNull v s).2.pool = returnNode s.pool ∧
      contains cmp isNull v (remove cmp isNull v s).2 = false) ∧
    (contains cmp isNull v s = false → remove cmp isNull v s = (false, s)) := by
  obtain ⟨hval, hsz⟩ := hI
  constructor
  · intro h
    obtain ⟨hnn, hmem⟩ := (contains_iff hc isNull v s ⟨hval, hsz⟩).mp h
    have hguard : ¬ (isEmpty s || isNull v) = true := by
      intro hg
      rcases Bool.or_eq_true_iff.mp hg with hg | hg
      · rw [(isEmpty_iff s).mp hg] at hmem
        simp [inOrder] at hmem
      · rw [hnn] at hg
        exact Bool.false_ne_true hg
    obtain ⟨_, hfound⟩ := removeIter_spec hc v s.root s.pool none none hval
    obtain ⟨t2, hor, hpool, herase, hval2⟩ := hfound hmem
    have hnodup : (inOrder s.root).Nodup :=
      pairwise_nodup hc ((validate_iff hc s.root none none).mp hval).1
    have hnotin : v ∉ inOrder t2 := by
      rw [herase]
      intro hx
      exact absurd (hnodup.mem_erase_iff.mp hx).1 (by simp)
    have hlen : (inOrder t2).length = (inOrder s.root).length - 1 := by
      rw [herase]
      exact List.length_erase_of_mem hmem
    have hpos : 0 < (inOrder s.root).length := List.length_pos.mpr
      (fun he => by rw [he] at hmem; simp at hmem)
    have hI2 : Inv cmp (⟨t2, s.size - 1, returnNode s.pool⟩ : TreeState α) := by
      refine ⟨hval2, ?_⟩
      show s.size - 1 = ((inOrder t2).length : Int)
      rw [hlen, hsz]
      omega
    have hstate : (remove cmp isNull v s).2 =
        ⟨t2, s.size - 1, returnNode s.pool⟩ ∧
        (remove cmp isNull v s).1 = true := by
      rw [remove, if_neg hguard]
      rcases hor with heq | heq <;> simp [heq, hpool]
    rw [hstate.1]
    refine ⟨hstate.2, hI2, rfl, herase, rfl, ?_⟩
    rw [Bool.eq_false_iff]
    intro hcon
    exact hnotin ((contains_iff hc isNull v _ hI2).mp hcon).2
  · intro h
    by_cases hguard : (isEmpty s || isNull v) = true
    · rw [remove, if_pos hguard]
    · have hnn : isNull v = false := by
        rcases h2 : isNull v with _ | _
        · rfl
        · exact absurd (by rw [h2]; simp) hguard
      have hmem : v ∉ inOrder s.root := by
        intro hmem
        rw [(contains_iff hc isNull v s ⟨hval, hsz⟩).mpr ⟨hnn, hmem⟩] at h
        simp at h
      obtain ⟨hnf, _⟩ := removeIter_spec hc v s.root s.pool none none hval
      rw [remove, if_neg hguard]
      simp only [hnf hmem]

/-- Any successful run of public inserts and removes preserves the invariant. -/
theorem runOps_inv {α : Type} [DecidableEq α] {cmp : Comparator α}
    (hc : IsStrictCmp cmp) (isNull : α → Bool) (ops : List (Op α)) :
    ∀ (s s2 : TreeState α), Inv cmp s →
      runOps cmp isNull s ops = Except.ok s2 → Inv cmp s2 := by
  induction ops with
  | nil =>
      intro s s2 hI h
      rw [runOps] at h
      cases h
      exact hI
  | cons op rest ih =>
      intro s s2 hI h
      cases op with
      | ins v =>
          rw [runOps] at h
          rcases hn : isNull v with _ | _
          · obtain ⟨_, hok⟩ := insert_spec hc isNull v s hI
            obtain ⟨s3, heq, hI3, _, _⟩ := hok hn
            rw [heq] at h
            exact ih s3 s2 hI3 h
          · rw [(insert_spec hc isNull v s hI).1 hn] at h
            simp at h
      | del v =>
          rw [runOps] at h
          by_cases hcon : contains cmp isNull v s = true
          · exact ih _ s2 ((remove_spec hc isNull v s hI).1 hcon).2.1 h
          · have hfalse : contains cmp isNull v s = false := by
              rcases h2 : contains cmp isNull v s with _ | _
              · rfl
              · exact absurd h2 hcon
            rw [(remove_spec hc isNull v s hI).2 hfalse] at h
            exact ih s s2 hI h

/-- Running `insert` once per element of a list of fresh, pairwise-distinct,
non-null values succeeds and adds exactly those values. -/
theorem insertAll_spec {α : Type} [DecidableEq α] {cmp : Comparator α}
    (hc : IsStrictCmp cmp) (isNull : α → Bool) (values : List α) :
    ∀ s : TreeState α, Inv cmp s →
      (∀ v ∈ values, isNull v = false) →
      values.Nodup →
      (∀ v ∈ values, v ∉ inOrder s.root) →
      ∃ s2, runOps cmp isNull s (values.map Op.ins) = Except.ok s2 ∧
        Inv cmp s2 ∧ (inOrder s2.root).Perm (inOrder s.root ++ values) := by
  induction values with
  | nil =>
      intro s hI _ _ _
      refine ⟨s, ?_, hI, by simp⟩
      rw [List.map_nil, runOps]
  | cons v rest ih =>
      intro s hI hnn hnd hfresh
      obtain ⟨_, hok⟩ := insert_spec hc isNull v s hI
      obtain ⟨s3, heq, hI3, _, hnewcase⟩ := hok (hnn v (by simp))
      obtain ⟨hperm1, _, _⟩ := hnewcase (hfresh v (by simp))
      have hfresh3 : ∀ u ∈ rest, u ∉ inOrder s3.root := by
        intro u hu hmem
        rcases List.mem_cons.mp ((hperm1.mem_iff).mp hmem) with rfl | h1
        · exact (List.nodup_cons.mp hnd).1 hu
        · exact hfresh u (by simp [hu]) h1
      obtain ⟨s2, hrun, hI2, hperm2⟩ := ih s3 hI3
        (fun u hu => hnn u (by simp [hu]))
        (List.nodup_cons.mp hnd).2 hfresh3
      refine ⟨s2, ?_, hI2, ?_⟩
      · rw [List.map_cons, runOps, heq]
        exact hrun
      · refine hperm2.trans ?_
        refine (hperm1.append_right rest).trans ?_
        exact (@List.perm_middle α v (inOrder s.root) rest).symm

/-!
### Pool bounds
-/

theorem returnNode_le (pool : Nat) (h : pool ≤ MAX_POOL_SIZE) :
    returnNode pool ≤ MAX_POOL_SIZE := by
  rw [returnNode]
  split <;> omega

theorem insertIter_pool_le {α : Type} (cmp : Comparator α) (v : α) :
    ∀ (t : BST α) (pool : Nat), (insertIter cmp v t pool).2.1 ≤ pool := by
  intro t
  induction t with
  | nil =>
      intro pool
      rw [insertIter]
  | node val c b l r ihl ihr =>
      intro pool
      rw [insertIter.eq_def]
      by_cases h0 : cmp v val = 0
      · simp [h0]
      · by_cases hlt : cmp v val < 0
        · cases l with
          | nil =>
              simp only [h0, hlt, if_true, if_false, ite_true, ite_false]
              exact createNode_pool_le pool v
          | node lv lc lb ll lr =>
              simp only [h0, hlt, if_true, if_false, ite_true, ite_false]
              exact ihl pool
        · cases r with
          | nil =>
              simp only [h0, hlt, if_true, if_false, ite_true, ite_false]
              exact createNode_pool_le pool v
          | node rv rc rb rl rr =>
              simp only [h0, hlt, if_true, if_false, ite_true, ite_false]
              exact ihr pool

theorem removeIter_pool {α : Type} (cmp : Comparator α) (v : α) :
    ∀ (t : BST α) (pool : Nat),
      (removeIter cmp v t pool).2 = pool ∨
      (removeIter cmp v t pool).2 = returnNode pool := by
  intro t
  induction t with
  | nil =>
      intro pool
      rw [removeIter]
      exact Or.inl rfl
  | node val c b l r ihl ihr =>
      intro pool
      rw [removeIter.eq_def]
      by_cases h0 : cmp v val = 0
      · cases l with
        | nil =>
            cases r with
            | nil => simp [h0]
            | node rv rc rb rl rr => simp [h0]
        | node lv lc lb ll lr =>
            cases r with
            | nil => simp [h0]
            | node rv rc rb rl rr =>
                simp only [h0, if_true, ite_true]
                split
                · exact Or.inr (removeLeftmost_spec rl rv rc rb rr pool).2
                · exact Or.inr (removeLeftmost_spec rl rv rc rb rr pool).2
      · by_cases hlt : cmp v val < 0
        · simp only [h0, hlt, if_true, if_false, ite_true, ite_false]
          rcases hres : (removeIter cmp v l pool).1 with _ | t2 | t2 <;>
            simpa [hres] using ihl pool
        · simp only [h0, hlt, if_true, if_false, ite_true, ite_false]
          rcases hres : (removeIter cmp v r pool).1 with _ | t2 | t2 <;>
            simpa [hres] using ihr pool

theorem clearRecursive_le {α : Type} : ∀ (t : BST α) (pool : Nat),
    pool ≤ MAX_POOL_SIZE → clearRecursive t pool ≤ MAX_POOL_SIZE := by
  intro t
  induction t with
  | nil =>
      intro pool h
      rw [clearRecursive]
      exact h
  | node val c b l r ihl ihr =>
      intro pool h
      rw [clearRecursive]
      exact returnNode_le _ (ihr _ (ihl _ h))

theorem mkBST_none_inv {α : Type} (cmp : Comparator α) (pool : Nat) :
    Inv cmp (mkBST none pool) := by
  constructor
  · rfl
  · simp [mkBST, inOrder]

/-- With non-null insert arguments no operation throws, so a run of public
operations always succeeds. -/
theorem runOps_total {α : Type} [DecidableEq α] {cmp : Comparator α}
    (hc : IsStrictCmp cmp) (isNull : α → Bool) (ops : List (Op α)) :
    ∀ s : TreeState α, Inv cmp s →
      (∀ v, Op.ins v ∈ ops → isNull v = false) →
      ∃ s2, runOps cmp isNull s ops = Except.ok s2 := by
  induction ops with
  | nil =>
      intro s _ _
      exact ⟨s, by rw [runOps]⟩
  | cons op rest ih =>
      intro s hI hnn
      cases op with
      | ins v =>
          obtain ⟨_, hok⟩ := insert_spec hc isNull v s hI
          obtain ⟨s3, heq, hI3, _, _⟩ := hok (hnn v (by simp))
          obtain ⟨s2, hrun⟩ := ih s3 hI3 (fun u hu => hnn u (by simp [hu]))
          refine ⟨s2, ?_⟩
          rw [runOps, heq]
          exact hrun
      | del v =>
          have hI3 : Inv cmp (remove cmp isNull v s).2 := by
            by_cases hcon : contains cmp isNull v s = true
            · exact ((remove_spec hc isNull v s hI).1 hcon).2.1
            · rw [(remove_spec hc isNull v s hI).2
                (Bool.eq_false_iff.mpr hcon)]
              exact hI
          obtain ⟨s2, hrun⟩ := ih _ hI3 (fun u hu => hnn u (by simp [hu]))
          refine ⟨s2, ?_⟩
          rw [runOps]
          exact hrun

/-!
## The claims
-/

/-- C1: for every sequence of `insert`/`remove` operations with non-null
values, under a comparator that is a strict total order, applied to an
initially empty tree, the run succeeds, `isValidBST()` returns `true`, and
`size` equals the length of the array returned by `inOrderTraversal()`. -/
theorem spec_C1 {α : Type} [DecidableEq α] {cmp : Comparator α}
    (isNull : α → Bool) (ops : List (Op α)) (pool : Nat)
    (hc : IsStrictCmp cmp)
    (hnn : ∀ v, Op.ins v ∈ ops → isNull v = false) :
    ∃ s, runOps cmp isNull (mkBST none pool) ops = Except.ok s ∧
      isValidBST cmp s = true ∧
      s.size = ((inOrderTraversal s).length : Int) := by
  obtain ⟨s, hrun⟩ := runOps_total hc isNull ops (mkBST none pool)
    (mkBST_none_inv cmp pool) hnn
  have hI := runOps_inv hc isNull ops _ s (mkBST_none_inv cmp pool) hrun
  refine ⟨s, hrun, hI.1, ?_⟩
  rw [inOrderTraversal_eq]
  exact hI.2

theorem spec_C1_witness :
    ∃ s, runOps defaultCmp isNullOpt (mkBST none 0)
        [Op.ins (some 50), Op.ins (some 25), Op.del (some 25),
          Op.ins (some 75), Op.del (some 99)] = Except.ok s ∧
      isValidBST defaultCmp s = true ∧
      s.size = ((inOrderTraversal s).length : Int) :=
  spec_C1 isNullOpt _ 0 defaultCmp_strict (by
    intro v hv
    simp only [List.mem_cons, List.not_mem_nil, or_false] at hv
    rcases hv with hv | hv | hv | hv | hv <;>
      first
        | (cases hv; rfl)
        | exact absurd hv (by simp))

/-- C2: removing a contained value returns `true`, makes `contains` false and
decreases `size` by exactly one, keeping a valid tree whose in-order sequence
loses exactly that value; removing an absent value returns `false` and leaves
the state (including `size`) unchanged. -/
theorem spec_C2 {α : Type} [DecidableEq α] {cmp : Comparator α}
    (isNull : α → Bool) (v : α) (s : TreeState α)
    (hc : IsStrictCmp cmp) (hI : Inv cmp s) :
    (contains cmp isNull v s = true →
      (remove cmp isNull v s).1 = true ∧
      contains cmp isNull v (remove cmp isNull v s).2 = false ∧
      (remove cmp isNull v s).2.size = s.size - 1 ∧
      isValidBST cmp (remove cmp isNull v s).2 = true ∧
      inOrderTraversal (remove cmp isNull v s).2 =
        (inOrderTraversal s).erase v) ∧
    (contains cmp isNull v s = false → remove cmp isNull v s = (false, s)) := by
  obtain ⟨h1, h2⟩ := remove_spec hc isNull v s hI
  refine ⟨fun hcon => ?_, h2⟩
  obtain ⟨ha, hb, hsz, her, _, hcon2⟩ := h1 hcon
  refine ⟨ha, hcon2, hsz, hb.1, ?_⟩
  rw [inOrderTraversal_eq, inOrderTraversal_eq, her]

theorem spec_C2_witness :
    (remove defaultCmp isNullOpt (some 25) scenarioA).1 = true ∧
    (remove defaultCmp isNullOpt (some 25) scenarioA).2.size = 6 ∧
    contains defaultCmp isNullOpt (some 25)
      (remove defaultCmp isNullOpt (some 25) scenarioA).2 = false ∧
    inOrderTraversal (remove defaultCmp isNullOpt (some 25) scenarioA).2 =
      [some 10, some 30, some 50, some 60, some 75, some 80] ∧
    isValidBST defaultCmp
      (remove defaultCmp isNullOpt (some 25) scenarioA).2 = true := by
  have h := (spec_C2 isNullOpt (some 25) scenarioA defaultCmp_strict
    ⟨by decide, by decide⟩).1 (by decide)
  refine ⟨h.1, by decide, h.2.1, ?_, h.2.2.2.1⟩
  rw [inOrderTraversal_eq]
  decide

/-- C3: inserting any sequence of pairwise-distinct non-null values into an
empty tree succeeds, and `inOrderTraversal()` returns exactly those values in
ascending comparator order (it is a sorted permutation of them — and the only
one); `toArray()` returns the same array.  Traversal is modelled as a pure
function of the state (the source's loop writes only to its local stack and
result array), so repeating it trivially yields the same result. -/
theorem spec_C3 {α : Type} [DecidableEq α] {cmp : Comparator α}
    (isNull : α → Bool) (values : List α) (pool : Nat)
    (hc : IsStrictCmp cmp)
    (hnn : ∀ v ∈ values, isNull v = false)
    (hnd : values.Nodup) :
    ∃ s, runOps cmp isNull (mkBST none pool) (values.map Op.ins) =
        Except.ok s ∧
      (inOrderTraversal s).Perm values ∧
      List.Pairwise (cmpLt cmp) (inOrderTraversal s) ∧
      toArray s = inOrderTraversal s ∧
      ∀ l, values.Perm l → List.Pairwise (cmpLt cmp) l →
        inOrderTraversal s = l := by
  obtain ⟨s, hrun, hI, hperm⟩ := insertAll_spec hc isNull values
    (mkBST none pool) (mkBST_none_inv cmp pool) hnn hnd
    (by intro v _ hmem; simp [mkBST, inOrder] at hmem)
  have hperm2 : (inOrderTraversal s).Perm values := by
    rw [inOrderTraversal_eq]
    simpa [mkBST, inOrder] using hperm
  have hsorted : List.Pairwise (cmpLt cmp) (inOrderTraversal s) := by
    rw [inOrderTraversal_eq]
    exact ((validate_iff hc s.root none none).mp hI.1).1
  refine ⟨s, hrun, hperm2, hsorted, rfl, ?_⟩
  intro l hpl hsl
  haveI : IsAntisymm α (cmpLt cmp) :=
    ⟨fun a b h1 h2 => absurd h2 (cmpLt_asymm hc h1)⟩
  exact List.eq_of_perm_of_sorted (hperm2.trans hpl) hsorted hsl

theorem spec_C3_witness :
    ∃ s, runOps defaultCmp isNullOpt (mkBST none 0)
        ([some 50, some 25, some 75].map Op.ins) = Except.ok s ∧
      (inOrderTraversal s).Perm [some 50, some 25, some 75] ∧
      List.Pairwise (cmpLt defaultCmp) (inOrderTraversal s) ∧
      toArray s = inOrderTraversal s ∧
      ∀ l, List.Perm [some 50, some 25, some 75] l →
        List.Pairwise (cmpLt defaultCmp) l → inOrderTraversal s = l :=
  spec_C3 isNullOpt [some 50, some 25, some 75] 0 defaultCmp_strict
    (by decide) (by decide)

/-- C4: inserting an already-present non-null value is a complete no-op: the
call succeeds and the state — in particular `size` and therefore
`inOrderTraversal()` — is exactly unchanged. -/
theorem spec_C4 {α : Type} [DecidableEq α] {cmp : Comparator α}
    (isNull : α → Bool) (v : α) (s : TreeState α)
    (hc : IsStrictCmp cmp) (hI : Inv cmp s)
    (hcon : contains cmp isNull v s = true) :
    insert cmp isNull v s = Except.ok s := by
  obtain ⟨hnn, hmem⟩ := (contains_iff hc isNull v s hI).mp hcon
  obtain ⟨_, hok⟩ := insert_spec hc isNull v s hI
  obtain ⟨s2, heq, _, hsame, _⟩ := hok hnn
  rw [heq, hsame hmem]

theorem spec_C4_witness :
    insert defaultCmp isNullOpt (some 10) c4one = Except.ok c4one ∧
    c4one.size = 1 :=
  ⟨spec_C4 isNullOpt (some 10) c4one defaultCmp_strict
    ⟨by decide, by decide⟩ (by decide), by decide⟩

/-- C5: Scenario A — inserting 50, 25, 75, 10, 30, 60, 80 with the default
numeric comparator gives in-order [10,25,30,50,60,75,80], `height` 2 and
`size` 7; the `height` getter is −1 on an empty tree; and a read of an
invalid node recomputes `1 + max(left, right)` with an absent child
contributing −1. -/
theorem spec_C5 :
    runOps defaultCmp isNullOpt (mkBST none 0) scenarioAOps =
      Except.ok scenarioA ∧
    inOrderTraversal scenarioA =
      [some 10, some 25, some 30, some 50, some 60, some 75, some 80] ∧
    heightValue scenarioA = 2 ∧
    scenarioA.size = 7 ∧
    (∀ (sz : Int) (pool : Nat),
      heightValue (⟨BST.nil, sz, pool⟩ : TreeState (Option Int)) = -1) ∧
    (∀ (β : Type) (v : β) (c : Int) (l r : BST β),
      getHeight (BST.node v c false l r) =
        1 + max (getHeight l) (getHeight r)) ∧
    (∀ (β : Type), getHeight (BST.nil : BST β) = -1) := by
  refine ⟨by decide, ?_, by decide, by decide, ?_, ?_, ?_⟩
  · rw [inOrderTraversal_eq]
    decide
  · intro sz pool
    rfl
  · intro β v c l r
    simp [getHeight]
  · intro β
    rfl

/-- C6: the height-staleness scenario.  After insert 50; insert 25; reading
`height` (which caches 1 at the root with a valid bit); insert 10 — the
insert of 10 invalidates only node 25's bit (the tree shape below shows the
root bit still `true`), so the getter returns the stale 1 while the actual
height is 2, and reading again changes nothing and still returns 1; a later
operation that invalidates an ancestor's bit (insert 60 touches the root)
makes the getter agree with the actual height again. -/
theorem spec_C6 :
    c6s3.root = BST.node (some 50) 1 true
      (BST.node (some 25) 0 false
        (BST.node (some 10) 0 true BST.nil BST.nil) BST.nil) BST.nil ∧
    heightValue c6s3 = 1 ∧
    trueHeight c6s3.root = 2 ∧
    heightValue c6s3 ≠ trueHeight c6s3.root ∧
    readHeight c6s3 = c6s3 ∧
    heightValue (readHeight c6s3) = 1 ∧
    heightValue c6s4 = 2 ∧
    trueHeight c6s4.root = 2 := by
  decide

/-- C7: inserting a null-like value throws the hard error (and, the call
failing, no state is produced); searching with a null-like input or on an
empty tree returns the soft `null`; removing with a null-like input or on an
empty tree returns `false` with the state unchanged. -/
theorem spec_C7 {α : Type} (cmp : Comparator α) (isNull : α → Bool)
    (v : α) (s : TreeState α) :
    (isNull v = true →
      insert cmp isNull v s =
        Except.error "Cannot insert null or undefined value") ∧
    (isNull v = true ∨ isEmpty s = true →
      search cmp isNull v s = none ∧
      remove cmp isNull v s = (false, s)) := by
  constructor
  · intro h
    rw [insert, if_pos h]
  · intro h
    have hguard : (isEmpty s || isNull v) = true := by
      rcases h with h | h <;> simp [h]
    constructor
    · rw [search, if_pos hguard]
    · rw [remove, if_pos hguard]

theorem spec_C7_witness :
    insert defaultCmp isNullOpt none scenarioA =
      Except.error "Cannot insert null or undefined value" ∧
    search defaultCmp isNullOpt none scenarioA = none ∧
    remove defaultCmp isNullOpt none scenarioA = (false, scenarioA) ∧
    search defaultCmp isNullOpt (some 5) (mkBST none 0) = none ∧
    remove defaultCmp isNullOpt (some 5) (mkBST none 0) =
      (false, mkBST none 0) :=
  ⟨(spec_C7 defaultCmp isNullOpt none scenarioA).1 rfl,
    ((spec_C7 defaultCmp isNullOpt none scenarioA).2 (Or.inl rfl)).1,
    ((spec_C7 defaultCmp isNullOpt none scenarioA).2 (Or.inl rfl)).2,
    ((spec_C7 defaultCmp isNullOpt (some 5) (mkBST none 0)).2 (Or.inr rfl)).1,
    ((spec_C7 defaultCmp isNullOpt (some 5) (mkBST none 0)).2 (Or.inr rfl)).2⟩

/-- C8: the falsy-root bug of `getRootValue()`.  Inserting the number 0 into
an empty tree gives a non-empty tree whose root stores 0, yet
`getRootValue()` returns `null` because `this._root?.value || null` treats
the falsy stored value 0 like the empty-tree case — contradicting the
documented "root value, or null if empty". -/
theorem spec_C8 :
    insert defaultCmp isNullOpt (some 0) (mkBST none 0) =
      Except.ok c8state ∧
    isEmpty c8state = false ∧
    c8state.root = BST.node (some 0) 0 true BST.nil BST.nil ∧
    getRootValue falsyOpt c8state = none := by
  decide

/-- C9: the shared pool stays within `MAX_POOL_SIZE` (100) across every tree
operation: `_returnNode` pushes a wiped shell only while below the bound and
otherwise drops the node, and `_createNode` only ever pops.  Starting from a
bounded pool, `insert`, `remove` and `clear` keep it bounded. -/
theorem spec_C9 {α : Type} (cmp : Comparator α) (isNull : α → Bool)
    (s : TreeState α) (hp : s.pool ≤ MAX_POOL_SIZE) :
    (∀ (v : α) (s2 : TreeState α),
      insert cmp isNull v s = Except.ok s2 → s2.pool ≤ MAX_POOL_SIZE) ∧
    (∀ v : α, (remove cmp isNull v s).2.pool ≤ MAX_POOL_SIZE) ∧
    (clear s).pool ≤ MAX_POOL_SIZE := by
  refine ⟨?_, ?_, ?_⟩
  · intro v s2 hins
    rw [insert] at hins
    by_cases hn : isNull v
    · rw [if_pos hn] at hins
      exact absurd hins (by simp)
    · rw [if_neg hn] at hins
      by_cases hemp : isEmpty s
      · rw [if_pos hemp] at hins
        rw [← Except.ok.inj hins]
        exact le_trans (createNode_pool_le s.pool v) hp
      · rw [if_neg hemp] at hins
        rw [← Except.ok.inj hins]
        exact le_trans (insertIter_pool_le cmp v s.root s.pool) hp
  · intro v
    rw [remove]
    by_cases hguard : (isEmpty s || isNull v) = true
    · rw [if_pos hguard]
      exact hp
    · rw [if_neg hguard]
      rcases hres : (removeIter cmp v s.root s.pool).1 with _ | t2 | t2 <;>
        simp only [hres] <;>
        rcases removeIter_pool cmp v s.root s.pool with h | h <;>
        rw [h] <;>
        first
          | exact hp
          | exact returnNode_le _ hp
  · exact clearRecursive_le s.root s.pool hp

theorem spec_C9_witness :
    scenarioA.pool ≤ MAX_POOL_SIZE ∧
    (∀ (v : Option Int) (s2 : TreeState (Option Int)),
      insert defaultCmp isNullOpt v scenarioA = Except.ok s2 →
        s2.pool ≤ MAX_POOL_SIZE) ∧
    (∀ v : Option Int,
      (remove defaultCmp isNullOpt v scenarioA).2.pool ≤ MAX_POOL_SIZE) ∧
    (clear scenarioA).pool ≤ MAX_POOL_SIZE :=
  ⟨by decide,
    (spec_C9 defaultCmp isNullOpt scenarioA (by decide)).1,
    (spec_C9 defaultCmp isNullOpt scenarioA (by decide)).2.1,
    (spec_C9 defaultCmp isNullOpt scenarioA (by decide)).2.2⟩

/-- C10: the constructor skips insert's null check.  An explicit `null`
initial root value (only `undefined` means "no initial value") yields a tree
of size 1 whose root holds `null`; `insert(null)` on that same tree still
throws; and `rootValue()` on it returns `null`, which is indistinguishable
from the empty tree's result. -/
theorem spec_C10 :
    mkBST (some (none : Option Int)) 0 =
      ⟨BST.node none 0 true BST.nil BST.nil, 1, 0⟩ ∧
    (mkBST (some (none : Option Int)) 0).size = 1 ∧
    mkBST (none : Option (Option Int)) 0 = ⟨BST.nil, 0, 0⟩ ∧
    insert defaultCmp isNullOpt none (mkBST (some (none : Option Int)) 0) =
      Except.error "Cannot insert null or undefined value" ∧
    getRootValue falsyOpt (mkBST (some (none : Option Int)) 0) = none ∧
    getRootValue falsyOpt (mkBST (none : Option (Option Int)) 0) = none := by
  decide
